import Mathlib

/-!
Shallow embedding of the GPT-style language model implemented in `src/model.py`
(classes `SingleHeadAttention`, `MultiHeadAttention`, `FeedForwardLayer`,
`LayerNorm`, `TransformerLayer`, `MiniGPT`).

Modelling conventions:
* A tensor of shape `(num_tokens, dim)` is a `Mat α` (list of rows); the batch
  dimension is not modelled explicitly because every layer acts on batch
  elements independently, so each claim is stated per batch element.
* Machine floating point is idealised to an abstract linearly ordered field
  `α`; the library scalar functions used by the code (`torch.exp` inside
  softmax, `math.sqrt` / `torch.sqrt`, the GELU activation) are supplied by a
  `ScalarOps α` record and instantiated with `Real.exp`, `Real.sqrt`, … in
  concrete theorems.
* A torch operation that raises a shape error is embedded as an `Option`
  returning `none`; the shape guards mirror torch's broadcasting rules for the
  two-dimensional cases that occur in this model.
* `nn.Dropout` is modelled in eval mode (the identity), which is the mode the
  numerical claims quantify over.
-/

/-- Scalar operations delegated by `src/model.py` to the host tensor library:
the exponential used by `nn.functional.softmax`, the square root used by
`math.sqrt` and `torch.sqrt`, and the `nn.GELU` activation. -/
structure ScalarOps (α : Type) where
  exp : α → α
  sqrt : α → α
  gelu : α → α

abbrev Vec (α : Type) := List α

abbrev Mat (α : Type) := List (List α)

/-- Column count of a matrix, read off its first row (library tensors are
rectangular; raggedness is rejected by the rectangularity guards below). -/
def theCols {α : Type} (A : Mat α) : ℕ := (A.headD []).length

/-- Boolean rectangularity check: all rows share the first row's length. -/
def isRectB {α : Type} (A : Mat α) : Bool := A.all (fun r => r.length == theCols A)

/-- Shape predicate: `A` is an `n × d` matrix. -/
def Mat.isRect {α : Type} (A : Mat α) (n d : ℕ) : Prop :=
  A.length = n ∧ ∀ r ∈ A, r.length = d

instance {β : Type} (A : Mat β) (n d : ℕ) : Decidable (Mat.isRect A n d) := by
  unfold Mat.isRect
  infer_instance

/-- Element of a matrix under torch broadcasting of a size-1 dimension. -/
def bcGet {β : Type} (z : β) (A : Mat β) (i j : ℕ) : β :=
  ((A.getD (if A.length == 1 then 0 else i) []).getD
    (if (A.getD (if A.length == 1 then 0 else i) []).length == 1 then 0 else j) z)

section FieldOps

variable {α : Type} [LinearOrderedField α]

/-- Dot product of two vectors (inner step of `torch.matmul`). -/
def dot : Vec α → Vec α → α
  | a :: as, b :: bs => a * b + dot as bs
  | _, _ => 0

/-- Matrix-vector product `W · v` for a weight matrix stored as
`out_features` rows of length `in_features` (torch `nn.Linear` layout). -/
def matVec (W : Mat α) (v : Vec α) : Vec α := W.map (fun r => dot r v)

/-- Tensor transpose `transpose(-2, -1)` of a (rectangular) matrix. -/
def matTranspose (A : Mat α) : Mat α :=
  (List.range (theCols A)).map (fun j => A.map (fun r => r.getD j 0))

/-- The `torch.matmul` of two 2-D tensors, `none` on an inner-dimension
mismatch or a ragged operand. -/
def tMatMul (A B : Mat α) : Option (Mat α) :=
  if (A.all fun r => r.length == B.length) && isRectB B then
    some (A.map fun r => (matTranspose B).map (fun c => dot r c))
  else none

/-- Elementwise sum of two equally long vectors. -/
def vAdd (a b : Vec α) : Vec α := List.zipWith (· + ·) a b

/-- Row-wise sum of two matrices of identical shape. -/
def mAdd (A B : Mat α) : Mat α := List.zipWith vAdd A B

/-- The tensor sum `A + B` of two 2-D tensors with torch broadcasting of
size-1 dimensions; `none` on incompatible shapes. -/
def tAdd (A B : Mat α) : Option (Mat α) :=
  if isRectB A && isRectB B
      && (A.length == B.length || A.length == 1 || B.length == 1)
      && (theCols A == theCols B || theCols A == 1 || theCols B == 1) then
    some ((List.range (max A.length B.length)).map fun i =>
      (List.range (max (theCols A) (theCols B))).map fun j =>
        bcGet 0 A i j + bcGet 0 B i j)
  else none

/-- In-place `masked_fill_(mask == 1, v)`: the mask must be broadcastable to
the tensor being written. -/
def maskedFill (A : Mat α) (M : Mat ℕ) (v : α) : Option (Mat α) :=
  if isRectB M
      && (M.length == A.length || M.length == 1)
      && (theCols M == theCols A || theCols M == 1) then
    some ((List.range A.length).map fun i =>
      (List.range (A.getD i []).length).map fun j =>
        if bcGet 0 M i j == 1 then v else (A.getD i []).getD j 0)
  else none

/-- Softmax of one row, `exp`-normalisation as computed by
`nn.functional.softmax(·, dim=-1)`. -/
def softmaxVec (ops : ScalarOps α) (v : Vec α) : Vec α :=
  v.map (fun s => ops.exp s / (v.map ops.exp).sum)

/-- Row-wise softmax over the last dimension. -/
def softmaxMat (ops : ScalarOps α) (A : Mat α) : Mat α := A.map (softmaxVec ops)

/-- Dropout in eval mode (the identity on its input). -/
def dropoutEval (A : Mat α) : Mat α := A

/-- Embedding lookup `nn.Embedding`: row `ids[k]` of the table; `none` when an
index is out of range. -/
def embLookup (table : Mat α) (ids : List ℕ) : Option (Mat α) :=
  if ids.all (fun i => decide (i < table.length)) then
    some (ids.map (fun i => table.getD i []))
  else none

/-- A `nn.Linear` layer with bias (`y = W x + b` applied to each row). -/
structure LinearP (α : Type) where
  inF : ℕ
  outF : ℕ
  weight : Mat α
  bias : Vec α

/-- Application of a biased linear layer to a `(num_tokens, inF)` tensor. -/
def linApply (l : LinearP α) (x : Mat α) : Option (Mat α) :=
  if x.all (fun r => r.length == l.inF) then
    some (x.map fun r => vAdd (matVec l.weight r) l.bias)
  else none

/-- Application of a bias-free linear layer (`bias=False`) with the given
`in_features` to a `(num_tokens, inF)` tensor. -/
def linApplyNB (inF : ℕ) (W : Mat α) (x : Mat α) : Option (Mat α) :=
  if x.all (fun r => r.length == inF) then some (x.map fun r => matVec W r) else none

end FieldOps

/-- The `torch.ones((n, m))` tensor (modelled with `ℕ` entries, as the mask is
only ever compared against `1`). -/
def matOnesN (n m : ℕ) : Mat ℕ := List.replicate n (List.replicate m 1)

/-- The `torch.triu(A, diagonal=d)` operation: keep entry `(i, j)` when
`j ≥ i + d`, zero it otherwise. -/
def triuN (A : Mat ℕ) (d : ℤ) : Mat ℕ :=
  (List.range A.length).map fun (i : ℕ) =>
    (List.range (A.getD i []).length).map fun (j : ℕ) =>
      if (i : ℤ) + d ≤ (j : ℤ) then (A.getD i []).getD j 0 else 0

/-- The `causal_mask` buffer registered by `SingleHeadAttention.__init__`:
`torch.triu(torch.ones((max_len, max_len)), diagonal=1)`. -/
def causalMask (maxLen : ℕ) : Mat ℕ := triuN (matOnesN maxLen maxLen) 1

section Model

variable {α : Type} [LinearOrderedField α]

/-- Parameters of `SingleHeadAttention` after `__init__`: the three bias-free
projections and the dimensions fixed at construction time.  The
`causal_mask` buffer is determined by `maxLen` (see `causalMask`). -/
structure SingleHeadAttention (α : Type) where
  inputDim : ℕ
  outputKeyQueryDim : ℕ
  outputValueDim : ℕ
  maxLen : ℕ
  key : Mat α
  query : Mat α
  value : Mat α

/-- Well-formedness of the projection weights created by
`SingleHeadAttention.__init__` (`nn.Linear(input_dim, out_dim, bias=False)`
stores an `out_dim × input_dim` weight). -/
def SingleHeadAttention.wf (p : SingleHeadAttention α) : Prop :=
  Mat.isRect p.key p.outputKeyQueryDim p.inputDim ∧
  Mat.isRect p.query p.outputKeyQueryDim p.inputDim ∧
  Mat.isRect p.value p.outputValueDim p.inputDim

instance (p : SingleHeadAttention α) : Decidable p.wf := by
  unfold SingleHeadAttention.wf
  infer_instance

/-- The pre-mask attention scores of `SingleHeadAttention.forward`:
`torch.matmul(Q, K.transpose(-2, -1)) / math.sqrt(output_key_query_dim)`. -/
def shaScores (ops : ScalarOps α) (p : SingleHeadAttention α) (x : Mat α) :
    Option (Mat α) := do
  let Q ← linApplyNB p.inputDim p.query x
  let K ← linApplyNB p.inputDim p.key x
  let raw ← tMatMul Q (matTranspose K)
  pure (raw.map (fun r => r.map (fun s => s / ops.sqrt (p.outputKeyQueryDim : α))))

/-- The scores after the causal-mask fill:
`out.masked_fill_(M == 1, -1e10)` with `M = causal_mask[0:n, 0:n]`. -/
def shaMaskedScores (ops : ScalarOps α) (p : SingleHeadAttention α) (x : Mat α) :
    Option (Mat α) := do
  let s ← shaScores ops p x
  let M := ((causalMask p.maxLen).take s.length).map (fun r => r.take (theCols s))
  maskedFill s M (-(10000000000 : α))

/-- The attention weights: `dropout(softmax(masked_scores, dim=-1))` (dropout
in eval mode). -/
def shaWeights (ops : ScalarOps α) (p : SingleHeadAttention α) (x : Mat α) :
    Option (Mat α) := do
  let m ← shaMaskedScores ops p x
  pure (dropoutEval (softmaxMat ops m))

/-- `SingleHeadAttention.forward`: the attention weights applied to the value
projection, `torch.matmul(weights, V)`. -/
def shaForward (ops : ScalarOps α) (p : SingleHeadAttention α) (x : Mat α) :
    Option (Mat α) := do
  let V ← linApplyNB p.inputDim p.value x
  let w ← shaWeights ops p x
  tMatMul w V

end Model

/-- Reading position `i < n` of a list built by mapping over `List.range n`. -/
theorem getD_map_range {β : Type} (f : ℕ → β) (d : β) {n i : ℕ} (h : i < n) :
    ((List.range n).map f).getD i d = f i := by
  rw [List.getD_eq_getElem?_getD, List.getElem?_map, List.getElem?_range h]
  rfl

/-- Reading a position of a replicated list. -/
theorem getD_replicate_lt {β : Type} (v d : β) {n i : ℕ} (h : i < n) :
    (List.replicate n v).getD i d = v := by
  rw [List.getD_eq_getElem?_getD, List.getElem?_replicate, if_pos h]
  rfl

/-- C2: the `causal_mask` buffer created by `SingleHeadAttention.__init__` is
strictly upper-triangular with zero diagonal: for every `max_len`, entry
`(i, j)` equals `1` if `j > i` and `0` otherwise. -/
theorem causalMask_strictly_upper (m i j : ℕ) (hi : i < m) (hj : j < m) :
    ((causalMask m).getD i []).getD j 0 = if i < j then 1 else 0 := by
  unfold causalMask triuN matOnesN
  rw [List.length_replicate, getD_map_range _ _ hi,
    getD_replicate_lt _ _ hi, List.length_replicate, getD_map_range _ _ hj,
    getD_replicate_lt _ _ hj]
  by_cases hij : i < j
  · have hz : (i : ℤ) + 1 ≤ (j : ℤ) := by exact_mod_cast hij
    simp [hij, hz]
  · have hz : ¬ ((i : ℤ) + 1 ≤ (j : ℤ)) := by
      intro hc
      exact hij (by exact_mod_cast Int.lt_of_add_one_le hc)
    simp [hij, hz]

/-- Concrete instance of `causalMask_strictly_upper` for `max_len = 3`. -/
theorem causalMask_strictly_upper_witness :
    ((causalMask 3).getD 1 []).getD 2 0 = if 1 < 2 then 1 else 0 :=
  causalMask_strictly_upper 3 1 2 (by decide) (by decide)

section Model2

variable {α : Type} [LinearOrderedField α]

/-- Parameters of `MultiHeadAttention` after `__init__`: `num_heads`
single-head layers (`self.head_{i}`) and the output projection `self.out`. -/
structure MultiHeadAttention (α : Type) where
  inputDim : ℕ
  numHeads : ℕ
  heads : List (SingleHeadAttention α)
  out : LinearP α

/-- Well-formedness matching `MultiHeadAttention.__init__`: every head is a
`SingleHeadAttention(input_dim, head_dim, head_dim)` with
`head_dim = int(input_dim / num_heads)` and the default `max_len = 512`, and
`self.out = nn.Linear(input_dim, input_dim, bias=True)`. -/
def MultiHeadAttention.wf (p : MultiHeadAttention α) : Prop :=
  p.heads.length = p.numHeads ∧
  (∀ h ∈ p.heads, h.inputDim = p.inputDim ∧
      h.outputKeyQueryDim = p.inputDim / p.numHeads ∧
      h.outputValueDim = p.inputDim / p.numHeads ∧
      h.maxLen = 512 ∧ h.wf) ∧
  p.out.inF = p.inputDim ∧ p.out.outF = p.inputDim ∧
  Mat.isRect p.out.weight p.inputDim p.inputDim ∧ p.out.bias.length = p.inputDim

instance (p : MultiHeadAttention α) : Decidable p.wf := by
  unfold MultiHeadAttention.wf
  infer_instance

/-- The per-head outputs collected by the loop in
`MultiHeadAttention.forward` (`values.append(head(x))`). -/
def headsOutputs (ops : ScalarOps α) :
    List (SingleHeadAttention α) → Mat α → Option (List (Mat α))
  | [], _ => some []
  | h :: t, x => do
      let v ← shaForward ops h x
      let rest ← headsOutputs ops t x
      pure (v :: rest)

/-- The `torch.cat(values, dim=-1)` of a nonempty list of matrices with equal
row counts: row `i` of the result is the concatenation of the rows `i`. -/
def catLastDim (ms : List (Mat α)) : Option (Mat α) :=
  if !ms.isEmpty && ms.all (fun m => m.length == (ms.headD []).length) then
    some ((List.range (ms.headD []).length).map fun i =>
      (ms.map (fun m => m.getD i [])).flatten)
  else none

/-- `MultiHeadAttention.forward`: concatenate the head outputs along the last
dimension, apply `self.out`, then dropout (eval mode). -/
def mhaForward (ops : ScalarOps α) (p : MultiHeadAttention α) (x : Mat α) :
    Option (Mat α) := do
  let vals ← headsOutputs ops p.heads x
  let catted ← catLastDim vals
  let o ← linApply p.out catted
  pure (dropoutEval o)

/-- Parameters of `FeedForwardLayer`: `fc1`, GELU, `fc2`, dropout. -/
structure FeedForwardLayer (α : Type) where
  fc1 : LinearP α
  fc2 : LinearP α

/-- `FeedForwardLayer.forward`: `dropout(fc2(gelu(fc1(x))))` with dropout in
eval mode. -/
def ffForward (ops : ScalarOps α) (p : FeedForwardLayer α) (x : Mat α) :
    Option (Mat α) := do
  let a ← linApply p.fc1 x
  let g := a.map (fun r => r.map ops.gelu)
  let b ← linApply p.fc2 g
  pure (dropoutEval b)

/-- The `torch.mean(input, dim=-1)` of one row. -/
def vecMean (v : Vec α) : α := v.sum / (v.length : α)

/-- The biased `torch.var(input, dim=-1, correction=0)` of one row. -/
def vecVar (v : Vec α) : α :=
  ((v.map (fun t => (t - vecMean v) ^ 2)).sum) / (v.length : α)

/-- Parameters of the custom `LayerNorm` module: `eps` (default `1e-05`), the
`elementwise_affine` flag, and the learnable `gamma` / `beta` vectors. -/
structure LayerNormP (α : Type) where
  eps : α
  elementwiseAffine : Bool
  gamma : Vec α
  beta : Vec α

/-- One normalised row: `(input - mean) / torch.sqrt(variance + eps)`. -/
def lnNormRow (ops : ScalarOps α) (eps : α) (r : Vec α) : Vec α :=
  r.map (fun t => (t - vecMean r) / ops.sqrt (vecVar r + eps))

/-- `LayerNorm.forward`: per-row normalisation, then `* gamma + beta` when
`elementwise_affine` (torch broadcasts `gamma`, `beta` across rows; a row
length differing from theirs is a shape error). -/
def lnForward (ops : ScalarOps α) (p : LayerNormP α) (x : Mat α) :
    Option (Mat α) :=
  if p.elementwiseAffine then
    (if x.all (fun r => r.length == p.gamma.length && r.length == p.beta.length) then
      some (x.map fun r =>
        vAdd (List.zipWith (· * ·) (lnNormRow ops p.eps r) p.gamma) p.beta)
    else none)
  else some (x.map (lnNormRow ops p.eps))

/-- Parameters of `TransformerLayer`: pre-norms, attention, feed-forward. -/
structure TransformerLayer (α : Type) where
  norm1 : LayerNormP α
  attention : MultiHeadAttention α
  norm2 : LayerNormP α
  feedforward : FeedForwardLayer α

/-- `TransformerLayer.forward` exactly as written in the source:
`out = norm1(x); out = attention(out); cache = out + x; out = norm2(cache);`
`out = feedforward(out); out = out + cache; return out`. -/
def tlForward (ops : ScalarOps α) (l : TransformerLayer α) (x : Mat α) :
    Option (Mat α) := do
  let n1 ← lnForward ops l.norm1 x
  let a ← mhaForward ops l.attention n1
  let cache ← tAdd a x
  let n2 ← lnForward ops l.norm2 cache
  let f ← ffForward ops l.feedforward n2
  tAdd f cache

/-- Parameters of `MiniGPT` after `__init__`.  The `pos` buffer is
`torch.arange(0, context_length)` and is reproduced as
`List.range contextLength` in the forward pass. -/
structure MiniGPT (α : Type) where
  vocabSize : ℕ
  embedDim : ℕ
  contextLength : ℕ
  vocabEmbedding : Mat α
  positionalEmbedding : Mat α
  layers : List (TransformerLayer α)
  preheadNorm : LayerNormP α
  head : LinearP α

/-- The loop `for transformer in self.transformer_layers: out = transformer(out)`. -/
def runLayers (ops : ScalarOps α) :
    List (TransformerLayer α) → Mat α → Option (Mat α)
  | [], h => some h
  | l :: ls, h => do
      let h2 ← tlForward ops l h
      runLayers ops ls h2

/-- `MiniGPT.forward` on one batch element (a 1-D token sequence; the code's
`unsqueeze` only introduces the batch dimension): embed, add the sliced
positional embeddings `positional_embedding(pos)[:seq_len, :]`, embedding
dropout (eval mode), the transformer layers, `prehead_norm`, and `head`. -/
def miniGPTForward (ops : ScalarOps α) (p : MiniGPT α) (x : List ℕ) :
    Option (Mat α) := do
  let emb ← embLookup p.vocabEmbedding x
  let posFull ← embLookup p.positionalEmbedding (List.range p.contextLength)
  let position := posFull.take emb.length
  let h1 ← tAdd emb position
  let h2 := dropoutEval h1
  let h3 ← runLayers ops p.layers h2
  let h4 ← lnForward ops p.preheadNorm h3
  linApply p.head h4

/-- The last `k` elements of a list (the python slice `l[-k:]`). -/
def lastN {β : Type} (k : ℕ) (l : List β) : List β := l.drop (l.length - k)

/-- One iteration of `MiniGPT.generate`: slice the running stream to its last
10 tokens, run the model, softmax the logits, take the final row, and append
the token drawn by `torch.multinomial` (modelled by the sampling oracle
`oracle`, indexed by the iteration count and fed the probability row). -/
def genStep (ops : ScalarOps α) (p : MiniGPT α) (oracle : ℕ → Vec α → ℕ)
    (i : ℕ) (stream : List ℕ) : Option (List ℕ) := do
  let ctx := lastN 10 stream
  let out ← miniGPTForward ops p ctx
  let probs := softmaxMat ops out
  let lastRow := probs.getD (probs.length - 1) []
  let pred := oracle i lastRow
  pure (stream ++ [pred])

/-- The generation loop, one `genStep` per remaining token. -/
def genLoop (ops : ScalarOps α) (p : MiniGPT α) (oracle : ℕ → Vec α → ℕ) :
    ℕ → ℕ → List ℕ → Option (List ℕ)
  | _, 0, stream => some stream
  | i, k + 1, stream => do
      let s2 ← genStep ops p oracle i stream
      genLoop ops p oracle (i + 1) k s2

/-- `MiniGPT.generate(context, max_new_tokens)`. -/
def miniGPTGenerate (ops : ScalarOps α) (p : MiniGPT α)
    (oracle : ℕ → Vec α → ℕ) (context : List ℕ) (maxNewTokens : ℕ) :
    Option (List ℕ) :=
  genLoop ops p oracle 0 maxNewTokens context

end Model2

/-- Reading below the length with `getD` is plain indexing. -/
theorem getD_lt {β : Type} (l : List β) (d : β) {i : ℕ} (h : i < l.length) :
    l.getD i d = l[i] := by
  simp [List.getD_eq_getElem?_getD, List.getElem?_eq_getElem h]

/-- A list is the range-indexed tabulation of its own entries. -/
theorem range_map_getD {β : Type} (r : List β) (d : β) :
    ((List.range r.length).map fun j => r.getD j d) = r := by
  apply List.ext_getElem
  · simp
  · intro i h1 h2
    simp only [List.getElem_map, List.getElem_range]
    exact getD_lt r d h2

/-- A rectangular matrix passes the boolean rectangularity guard. -/
theorem isRectB_of_isRect {β : Type} {A : Mat β} {n d : ℕ} (h : Mat.isRect A n d) :
    isRectB A = true := by
  rcases A with _ | ⟨r, t⟩
  · rfl
  · simp only [isRectB, List.all_eq_true, beq_iff_eq]
    intro s hs
    have hr : r.length = d := h.2 r (List.mem_cons_self r t)
    have hcols : theCols (r :: t) = d := by simpa [theCols] using hr
    rw [hcols]
    exact h.2 s hs

/-- Column count of a nonempty rectangular matrix. -/
theorem theCols_of_isRect {β : Type} {A : Mat β} {n d : ℕ} (h : Mat.isRect A n d)
    (hn : 1 ≤ n) : theCols A = d := by
  rcases A with _ | ⟨r, t⟩
  · simp [Mat.isRect] at h
    omega
  · simpa [theCols] using h.2 r (List.mem_cons_self r t)

/-- Row lengths of a rectangular matrix, through `getD`. -/
theorem row_length_of_isRect {β : Type} {A : Mat β} {n d i : ℕ}
    (h : Mat.isRect A n d) (hi : i < n) : (A.getD i []).length = d := by
  have hlen : i < A.length := by rw [h.1]; exact hi
  rw [getD_lt _ _ hlen]
  exact h.2 _ (List.getElem_mem hlen)

section ShapeLemmas

variable {α : Type} [LinearOrderedField α]

/-- Length of the transpose. -/
theorem matTranspose_length (A : Mat α) : (matTranspose A).length = theCols A := by
  simp [matTranspose]

/-- Shape of the transpose of a nonempty rectangular matrix. -/
theorem matTranspose_isRect {A : Mat α} {n d : ℕ} (h : Mat.isRect A n d)
    (hn : 1 ≤ n) : Mat.isRect (matTranspose A) d n := by
  constructor
  · rw [matTranspose_length, theCols_of_isRect h hn]
  · intro r hr
    simp only [matTranspose, List.mem_map] at hr
    obtain ⟨j, _, rfl⟩ := hr
    simp [h.1]

/-- Entry `(j, i)` of the transpose of a rectangular matrix. -/
theorem matTranspose_getElem {A : Mat α} {n d i j : ℕ} (h : Mat.isRect A n d)
    (hi : i < n) (hj : j < d) (hjl : j < (matTranspose A).length)
    (hil : i < (matTranspose A)[j].length) :
    (matTranspose A)[j][i] = (A.getD i []).getD j 0 := by
  have hiA : i < A.length := by rw [h.1]; exact hi
  simp only [matTranspose, List.getElem_map, List.getElem_range]
  rw [getD_lt _ _ hiA]

/-- Transposing twice returns a rectangular matrix with at least one column. -/
theorem matTranspose_matTranspose {A : Mat α} {n d : ℕ} (h : Mat.isRect A n d)
    (hd : 1 ≤ d) : matTranspose (matTranspose A) = A := by
  rcases Nat.eq_zero_or_pos n with hn | hn
  · subst hn
    have : A = [] := List.length_eq_zero.mp h.1
    subst this
    rfl
  · have hT : Mat.isRect (matTranspose A) d n := matTranspose_isRect h hn
    have hTT : Mat.isRect (matTranspose (matTranspose A)) n d :=
      matTranspose_isRect hT hd
    apply List.ext_getElem
    · rw [hTT.1, h.1]
    · intro i h1 h2
      have hi : i < n := by rwa [h.1] at h2
      apply List.ext_getElem
      · rw [hTT.2 _ (List.getElem_mem h1), h.2 _ (List.getElem_mem h2)]
      · intro j hj1 hj2
        have hjd : j < d := by
          rwa [hTT.2 _ (List.getElem_mem h1)] at hj1
        have hjT : j < (matTranspose A).length := by rw [hT.1]; exact hjd
        have hiTj : i < (matTranspose A)[j].length := by
          rw [hT.2 _ (List.getElem_mem hjT)]
          exact hi
        rw [matTranspose_getElem hT hjd hi h1 hj1]
        rw [getD_lt _ _ hjT, getD_lt _ _ hiTj]
        rw [matTranspose_getElem h hi hjd hjT hiTj]
        rw [getD_lt A [] (by rw [h.1]; exact hi)]
        rw [getD_lt _ _ (by rw [h.2 _ (List.getElem_mem h2)]; exact hjd)]

end ShapeLemmas

section AttentionLemmas

variable {α : Type} [LinearOrderedField α]

/-- Evaluation of a bias-free linear layer on well-shaped input. -/
theorem linApplyNB_eq {inF : ℕ} {W x : Mat α} (hx : ∀ r ∈ x, r.length = inF) :
    linApplyNB inF W x = some (x.map fun r => matVec W r) := by
  have hg : (x.all fun r => r.length == inF) = true := by
    simp only [List.all_eq_true, beq_iff_eq]
    exact hx
  simp [linApplyNB, hg]

/-- Evaluation of a biased linear layer on well-shaped input. -/
theorem linApply_eq {l : LinearP α} {x : Mat α} (hx : ∀ r ∈ x, r.length = l.inF) :
    linApply l x = some (x.map fun r => vAdd (matVec l.weight r) l.bias) := by
  have hg : (x.all fun r => r.length == l.inF) = true := by
    simp only [List.all_eq_true, beq_iff_eq]
    exact hx
  simp [linApply, hg]

/-- Length of a matrix-vector product. -/
theorem matVec_length (W : Mat α) (v : Vec α) : (matVec W v).length = W.length := by
  simp [matVec]

/-- Shape of a row-wise linear map. -/
theorem map_matVec_isRect {W x : Mat α} {n d o : ℕ} (hx : Mat.isRect x n d)
    (hW : W.length = o) : Mat.isRect (x.map fun r => matVec W r) n o := by
  constructor
  · simpa using hx.1
  · intro r hr
    simp only [List.mem_map] at hr
    obtain ⟨s, _, rfl⟩ := hr
    rw [matVec_length, hW]

/-- Closed form of `shaScores` on a well-shaped input: entry `(i, j)` is the
scaled dot product of query row `i` with key row `j`. -/
theorem shaScores_eq (ops : ScalarOps α) (p : SingleHeadAttention α)
    {x : Mat α} {n : ℕ} (hw : p.wf) (hx : Mat.isRect x n p.inputDim)
    (hkq : 1 ≤ p.outputKeyQueryDim) :
    shaScores ops p x =
      some (x.map fun xi => x.map fun xj =>
        dot (matVec p.query xi) (matVec p.key xj) /
          ops.sqrt (p.outputKeyQueryDim : α)) := by
  obtain ⟨hk, hq, hv⟩ := hw
  have hrows : ∀ r ∈ x, r.length = p.inputDim := hx.2
  have hQ : Mat.isRect (x.map fun r => matVec p.query r) n p.outputKeyQueryDim :=
    map_matVec_isRect hx hq.1
  have hK : Mat.isRect (x.map fun r => matVec p.key r) n p.outputKeyQueryDim :=
    map_matVec_isRect hx hk.1
  rw [shaScores, linApplyNB_eq hrows, linApplyNB_eq hrows]
  rcases Nat.eq_zero_or_pos n with hn | hn
  · have hxnil : x = [] := List.length_eq_zero.mp (hx.1.trans hn)
    subst hxnil
    simp [tMatMul, matTranspose, theCols, isRectB]
  · have hTK : Mat.isRect (matTranspose (x.map fun r => matVec p.key r))
        p.outputKeyQueryDim n := matTranspose_isRect hK hn
    have hg1 : ((x.map fun r => matVec p.query r).all fun r =>
        r.length == (matTranspose (x.map fun r => matVec p.key r)).length) = true := by
      simp only [List.all_eq_true, beq_iff_eq]
      intro r hr
      rw [hTK.1]
      exact hQ.2 r hr
    have hg2 : isRectB (matTranspose (x.map fun r => matVec p.key r)) = true :=
      isRectB_of_isRect hTK
    simp only [Option.bind_eq_bind, Option.some_bind, tMatMul, hg1, hg2,
      Bool.and_self, if_true, Bool.and_true, Bool.true_and]
    rw [matTranspose_matTranspose hK hkq]
    simp [List.map_map, Function.comp_def]

end AttentionLemmas

section MaskLemmas

variable {α : Type} [LinearOrderedField α]

/-- Reading a mapped list below its length through `getD`. -/
theorem getD_map {β γ : Type} (f : β → γ) (l : List β) (d : γ) (d0 : β)
    {i : ℕ} (h : i < l.length) : (l.map f).getD i d = f (l.getD i d0) := by
  rw [getD_lt _ _ (by simpa using h), List.getElem_map, getD_lt _ _ h]

/-- Closed form of the causal mask as a tabulated strict-upper indicator. -/
theorem causalMask_eq (m : ℕ) :
    causalMask m = (List.range m).map fun i => (List.range m).map fun j =>
      if i < j then 1 else 0 := by
  unfold causalMask triuN matOnesN
  rw [List.length_replicate]
  apply List.map_congr_left
  intro i hi
  have him : i < m := List.mem_range.mp hi
  rw [getD_replicate_lt _ _ him, List.length_replicate]
  apply List.map_congr_left
  intro j hj
  have hjm : j < m := List.mem_range.mp hj
  rw [getD_replicate_lt _ _ hjm]
  by_cases hij : i < j
  · have hz : (i : ℤ) + 1 ≤ (j : ℤ) := by exact_mod_cast hij
    simp [hij, hz]
  · have hz : ¬ ((i : ℤ) + 1 ≤ (j : ℤ)) := fun hc =>
      hij (by exact_mod_cast Int.lt_of_add_one_le hc)
    simp [hij, hz]

/-- Closed form of the sliced mask `causal_mask[0:n, 0:c]`. -/
theorem causalMask_slice {m n c : ℕ} (hn : n ≤ m) (hc : c ≤ m) :
    ((causalMask m).take n).map (fun r => r.take c) =
      (List.range n).map fun i => (List.range c).map fun j =>
        if i < j then 1 else 0 := by
  rw [causalMask_eq, ← List.map_take, List.take_range, Nat.min_eq_left hn,
    List.map_map]
  apply List.map_congr_left
  intro i _
  simp only [Function.comp_apply]
  rw [← List.map_take, List.take_range, Nat.min_eq_left hc]

/-- Broadcast access coincides with plain access inside a rectangular mask. -/
theorem bcGet_eq {β : Type} (z : β) {M : Mat β} {n c i j : ℕ}
    (h : Mat.isRect M n c) (hi : i < n) (hj : j < c) :
    bcGet z M i j = (M.getD i []).getD j z := by
  unfold bcGet
  have hMl : M.length = n := h.1
  have hidx : (if (M.length == 1) = true then 0 else i) = i := by
    by_cases hb : (M.length == 1) = true
    · rw [if_pos hb]
      have hn1 : M.length = 1 := beq_iff_eq.mp hb
      omega
    · rw [if_neg hb]
  rw [hidx]
  have hlen : (M.getD i []).length = c := row_length_of_isRect h hi
  have hjdx : (if ((M.getD i []).length == 1) = true then 0 else j) = j := by
    by_cases hb : ((M.getD i []).length == 1) = true
    · rw [if_pos hb]
      have hc1 : (M.getD i []).length = 1 := beq_iff_eq.mp hb
      omega
    · rw [if_neg hb]
  rw [hjdx]

/-- Closed form of `shaMaskedScores` on a well-shaped input: entries above the
diagonal are the fill value `-1e10`, entries at or below it are the scaled
query-key dot products. -/
theorem shaMaskedScores_eq (ops : ScalarOps α) (p : SingleHeadAttention α)
    {x : Mat α} {n : ℕ} (hw : p.wf) (hx : Mat.isRect x n p.inputDim)
    (hkq : 1 ≤ p.outputKeyQueryDim) (hn : n ≤ p.maxLen) :
    shaMaskedScores ops p x =
      some ((List.range n).map fun i => (List.range n).map fun j =>
        if i < j then -(10000000000 : α)
        else dot (matVec p.query (x.getD i [])) (matVec p.key (x.getD j [])) /
          ops.sqrt (p.outputKeyQueryDim : α)) := by
  rw [shaMaskedScores, shaScores_eq ops p hw hx hkq]
  have hS : Mat.isRect (x.map fun xi => x.map fun xj =>
      dot (matVec p.query xi) (matVec p.key xj) /
        ops.sqrt (p.outputKeyQueryDim : α)) n n := by
    constructor
    · simpa using hx.1
    · intro r hr
      simp only [List.mem_map] at hr
      obtain ⟨s, _, rfl⟩ := hr
      simpa using hx.1
  rcases Nat.eq_zero_or_pos n with hn0 | hn0
  · have hxnil : x = [] := List.length_eq_zero.mp (hx.1.trans hn0)
    subst hxnil
    subst hn0
    simp [maskedFill, isRectB, theCols, causalMask_eq]
  · have hScols : theCols (x.map fun xi => x.map fun xj =>
        dot (matVec p.query xi) (matVec p.key xj) /
          ops.sqrt (p.outputKeyQueryDim : α)) = n := theCols_of_isRect hS hn0
    have hSlen : (x.map fun xi => x.map fun xj =>
        dot (matVec p.query xi) (matVec p.key xj) /
          ops.sqrt (p.outputKeyQueryDim : α)).length = n := hS.1
    rw [Option.bind_eq_bind, Option.some_bind, hSlen, hScols,
      causalMask_slice hn hn]
    have hM : Mat.isRect ((List.range n).map fun i => (List.range n).map fun j =>
        if i < j then (1 : ℕ) else 0) n n := by
      constructor
      · simp
      · intro r hr
        simp only [List.mem_map] at hr
        obtain ⟨s, _, rfl⟩ := hr
        simp
    rw [maskedFill]
    rw [if_pos (by
      rw [isRectB_of_isRect hM, hSlen, hM.1, theCols_of_isRect hM hn0, hScols]
      simp)]
    congr 1
    rw [hSlen]
    apply List.map_congr_left
    intro i hi
    have him : i < n := List.mem_range.mp hi
    rw [row_length_of_isRect hS him]
    apply List.map_congr_left
    intro j hj
    have hjm : j < n := List.mem_range.mp hj
    have hix : i < x.length := by rw [hx.1]; exact him
    have hjx : j < x.length := by rw [hx.1]; exact hjm
    rw [bcGet_eq 0 hM him hjm, getD_map_range _ _ him, getD_map_range _ _ hjm]
    rw [getD_map _ _ _ [] hix, getD_map _ _ _ [] hjx]
    by_cases hij : i < j
    · simp [hij]
    · simp [hij]

end MaskLemmas

theorem dot_cons {α : Type} [LinearOrderedField α] (a b : α) (as bs : Vec α) :
    dot (a :: as) (b :: bs) = a * b + dot as bs := rfl

theorem dot_nil_left {α : Type} [LinearOrderedField α] (bs : Vec α) :
    dot [] bs = 0 := rfl

theorem dot_nil_right {α : Type} [LinearOrderedField α] (as : Vec α) :
    dot as [] = 0 := by
  cases as <;> rfl

section WeightsLemmas

variable {α : Type} [LinearOrderedField α]

/-- Evaluation of the attention weights on a well-shaped input. -/
theorem shaWeights_eq (ops : ScalarOps α) (p : SingleHeadAttention α)
    {x : Mat α} {n : ℕ} (hw : p.wf) (hx : Mat.isRect x n p.inputDim)
    (hkq : 1 ≤ p.outputKeyQueryDim) (hn : n ≤ p.maxLen) :
    shaWeights ops p x = some (softmaxMat ops ((List.range n).map fun i =>
      (List.range n).map fun j => if i < j then -(10000000000 : α)
      else dot (matVec p.query (x.getD i [])) (matVec p.key (x.getD j [])) /
        ops.sqrt (p.outputKeyQueryDim : α))) := by
  rw [shaWeights, shaMaskedScores_eq ops p hw hx hkq hn]
  rfl

end WeightsLemmas

/-- C1 (amended): with the source's `-1e10` mask value, in exact arithmetic a
position's softmax attention-weight row — not the full forward output — is
independent of all later positions: for two inputs of the same shape that
agree on rows `0..i`, the attention weights at position `i` coincide.  (The
forward output at position `i` additionally carries the future value vectors
with the exact-arithmetic weight `exp(-1e10)/Z`, which is why the claim as
stated fails; see `c1_counterexample`.) -/
theorem c1_attention_weights_causal {α : Type} [LinearOrderedField α]
    (ops : ScalarOps α) (p : SingleHeadAttention α) {x y : Mat α} {n i : ℕ}
    (hw : p.wf) (hx : Mat.isRect x n p.inputDim) (hy : Mat.isRect y n p.inputDim)
    (hkq : 1 ≤ p.outputKeyQueryDim) (hn : n ≤ p.maxLen) (hi : i < n)
    (hagree : ∀ k, k ≤ i → x.getD k [] = y.getD k []) :
    (shaWeights ops p x).map (fun W => W.getD i []) =
      (shaWeights ops p y).map (fun W => W.getD i []) := by
  rw [shaWeights_eq ops p hw hx hkq hn, shaWeights_eq ops p hw hy hkq hn]
  simp only [Option.map_some']
  congr 1
  unfold softmaxMat
  rw [getD_map _ _ _ [] (by simpa using hi), getD_map _ _ _ [] (by simpa using hi)]
  rw [getD_map_range _ _ hi, getD_map_range _ _ hi]
  congr 1
  apply List.map_congr_left
  intro j hj
  have hjn : j < n := List.mem_range.mp hj
  by_cases hij : i < j
  · simp [hij]
  · have hji : j ≤ i := Nat.le_of_not_lt hij
    rw [hagree j hji, hagree i (le_refl i)]

/-- Concrete instance of `c1_attention_weights_causal`: a 1-dimensional head
with identity projections, two inputs agreeing at position 0 and differing at
position 1 give the same attention-weight row at position 0. -/
theorem c1_attention_weights_causal_witness :
    (shaWeights (⟨Real.exp, Real.sqrt, id⟩ : ScalarOps ℝ)
        ⟨1, 1, 1, 2, [[1]], [[1]], [[1]]⟩ [[0], [1]]).map (fun W => W.getD 0 []) =
      (shaWeights (⟨Real.exp, Real.sqrt, id⟩ : ScalarOps ℝ)
        ⟨1, 1, 1, 2, [[1]], [[1]], [[1]]⟩ [[0], [2]]).map (fun W => W.getD 0 []) :=
  c1_attention_weights_causal (n := 2) (⟨Real.exp, Real.sqrt, id⟩ : ScalarOps ℝ)
    ⟨1, 1, 1, 2, [[1]], [[1]], [[1]]⟩
    (by refine ⟨⟨rfl, ?_⟩, ⟨rfl, ?_⟩, ⟨rfl, ?_⟩⟩ <;> (intro r hr; simp at hr; simp [hr]))
    (by exact ⟨rfl, by intro r hr; simp at hr; rcases hr with h | h <;> simp [h]⟩)
    (by exact ⟨rfl, by intro r hr; simp at hr; rcases hr with h | h <;> simp [h]⟩)
    (by norm_num) (by norm_num) (by norm_num)
    (by
      intro k hk
      have hk0 : k = 0 := Nat.le_zero.mp hk
      subst hk0
      rfl)

/-- C1 is false as stated: with the mask value `-1e10` (not `-∞`), the exact
softmax still places the weight `exp(-1e10)/Z > 0` on future positions, so in
exact arithmetic the output at position 0 changes when the input at position
1 changes.  (In the program's float32 execution `exp(-1e10)` underflows to
exactly 0, which is what the claim describes.) -/
theorem c1_counterexample :
    (shaForward (⟨Real.exp, Real.sqrt, id⟩ : ScalarOps ℝ)
        ⟨1, 1, 1, 2, [[1]], [[1]], [[1]]⟩ [[0], [0]]).bind (fun A => A[0]?) ≠
      (shaForward (⟨Real.exp, Real.sqrt, id⟩ : ScalarOps ℝ)
        ⟨1, 1, 1, 2, [[1]], [[1]], [[1]]⟩ [[0], [1]]).bind (fun A => A[0]?) := by
  simp only [shaForward, shaWeights, shaMaskedScores, shaScores, linApplyNB,
    matVec, tMatMul, matTranspose, theCols, isRectB, maskedFill, causalMask,
    triuN, matOnesN, softmaxMat, softmaxVec, dropoutEval, bcGet, dot_cons,
    dot_nil_left, dot_nil_right]
  norm_num [List.range_succ, List.all_cons, Real.exp_zero, dot_cons,
    dot_nil_left, dot_nil_right]
  simp [softmaxVec, dot_cons, dot_nil_right, Real.exp_zero]
  intro hc
  have h0 : (0 : ℝ) < Real.exp (-10000000000) / (1 + Real.exp (-10000000000)) := by
    positivity
  exact (ne_of_gt h0) hc.symm

section SuccessLemmas

variable {α : Type} [LinearOrderedField α]

/-- A tabulated matrix is rectangular. -/
theorem tab_isRect {β : Type} (n c : ℕ) (f : ℕ → ℕ → β) :
    Mat.isRect ((List.range n).map fun i => (List.range c).map fun j => f i j)
      n c := by
  constructor
  · simp
  · intro r hr
    simp only [List.mem_map] at hr
    obtain ⟨i, _, rfl⟩ := hr
    simp

/-- Row-wise softmax preserves the shape. -/
theorem softmaxMat_isRect (ops : ScalarOps α) {A : Mat α} {n c : ℕ}
    (h : Mat.isRect A n c) : Mat.isRect (softmaxMat ops A) n c := by
  constructor
  · simpa [softmaxMat] using h.1
  · intro r hr
    simp only [softmaxMat, List.mem_map] at hr
    obtain ⟨s, hs, rfl⟩ := hr
    simpa [softmaxVec] using h.2 s hs

/-- Success and shape of `torch.matmul` on compatible rectangular inputs with
a nonempty inner dimension. -/
theorem tMatMul_some {A B : Mat α} {n k m : ℕ} (hA : Mat.isRect A n k)
    (hB : Mat.isRect B k m) (hk : 1 ≤ k) :
    ∃ C, tMatMul A B = some C ∧ Mat.isRect C n m := by
  have hg1 : (A.all fun r => r.length == B.length) = true := by
    simp only [List.all_eq_true, beq_iff_eq]
    intro r hr
    rw [hB.1]
    exact hA.2 r hr
  have hg2 : isRectB B = true := isRectB_of_isRect hB
  refine ⟨_, by rw [tMatMul, hg1, hg2]; rfl, ?_⟩
  constructor
  · simpa using hA.1
  · intro r hr
    simp only [List.mem_map] at hr
    obtain ⟨s, _, rfl⟩ := hr
    rw [List.length_map, matTranspose_length, theCols_of_isRect hB hk]

/-- Failure of `torch.matmul` on an inner-dimension mismatch. -/
theorem tMatMul_none {A B : Mat α} {r : Vec α} (hr : r ∈ A)
    (hne : r.length ≠ B.length) : tMatMul A B = none := by
  have hg : (A.all fun s => s.length == B.length) = false := by
    simp only [List.all_eq_false]
    exact ⟨r, hr, by simpa [beq_iff_eq] using hne⟩
  rw [tMatMul, hg]
  rfl

/-- Success and shape of a biased linear layer on well-shaped input. -/
theorem linApply_some {l : LinearP α} {x : Mat α} {n : ℕ}
    (hx : Mat.isRect x n l.inF) (hW : Mat.isRect l.weight l.outF l.inF)
    (hb : l.bias.length = l.outF) :
    ∃ y, linApply l x = some y ∧ Mat.isRect y n l.outF := by
  refine ⟨_, linApply_eq hx.2, ?_⟩
  constructor
  · simpa using hx.1
  · intro r hr
    simp only [List.mem_map] at hr
    obtain ⟨s, _, rfl⟩ := hr
    simp [vAdd, matVec_length, hW.1, hb]

/-- Failure of a biased linear layer on a row-length mismatch. -/
theorem linApply_none {l : LinearP α} {x : Mat α} {r : Vec α} (hr : r ∈ x)
    (hne : r.length ≠ l.inF) : linApply l x = none := by
  have hg : (x.all fun s => s.length == l.inF) = false := by
    simp only [List.all_eq_false]
    exact ⟨r, hr, by simpa [beq_iff_eq] using hne⟩
  rw [linApply, hg]
  rfl

/-- Sum of the lengths of equally long lists. -/
theorem sum_const_lengths {β : Type} :
    ∀ (l : List (List β)) (c : ℕ), (∀ v ∈ l, v.length = c) →
      (l.map List.length).sum = l.length * c
  | [], _, _ => by simp
  | v :: t, c, h => by
    have hv : v.length = c := h v (List.mem_cons_self v t)
    have ht := sum_const_lengths t c (fun w hw => h w (List.mem_cons_of_mem v hw))
    simp only [List.map_cons, List.sum_cons, List.length_cons, ht, hv]
    ring

/-- Success and shape of `torch.cat(·, dim=-1)` on a nonempty list of
equally shaped matrices. -/
theorem catLastDim_some {ms : List (Mat α)} {n hd : ℕ} (hne : ms ≠ [])
    (hall : ∀ m ∈ ms, Mat.isRect m n hd) :
    ∃ C, catLastDim ms = some C ∧ Mat.isRect C n (ms.length * hd) := by
  have hhead : ms.headD [] ∈ ms := by
    rcases ms with _ | ⟨m, t⟩
    · exact absurd rfl hne
    · exact List.mem_cons_self m t
  have hheadlen : (ms.headD []).length = n := (hall _ hhead).1
  have hg1 : ms.isEmpty = false := by
    rcases ms with _ | _
    · exact absurd rfl hne
    · rfl
  have hg2 : (ms.all fun m => m.length == (ms.headD []).length) = true := by
    simp only [List.all_eq_true, beq_iff_eq]
    intro m hm
    rw [(hall m hm).1, hheadlen]
  refine ⟨_, by rw [catLastDim, hg1, hg2]; rfl, ?_⟩
  constructor
  · simp only [List.length_map, List.length_range]
    exact hheadlen
  · intro r hr
    simp only [List.mem_map] at hr
    obtain ⟨i, hi, rfl⟩ := hr
    have hin : i < n := by
      rw [← hheadlen]
      exact List.mem_range.mp hi
    rw [List.length_flatten,
      sum_const_lengths (ms.map fun m => m.getD i []) hd (by
        intro v hv
        simp only [List.mem_map] at hv
        obtain ⟨m, hm, rfl⟩ := hv
        exact row_length_of_isRect (hall m hm) hin),
      List.length_map]

/-- Success and shape of `SingleHeadAttention.forward` on a well-shaped input
with a nonempty key/query dimension and `num_tokens ≤ max_len`: the output is
`(num_tokens, output_value_dim)`. -/
theorem shaForward_some (ops : ScalarOps α) (p : SingleHeadAttention α)
    {x : Mat α} {n : ℕ} (hw : p.wf) (hx : Mat.isRect x n p.inputDim)
    (hkq : 1 ≤ p.outputKeyQueryDim) (hn : n ≤ p.maxLen) :
    ∃ y, shaForward ops p x = some y ∧ Mat.isRect y n p.outputValueDim := by
  have hV : Mat.isRect (x.map fun r => matVec p.value r) n p.outputValueDim :=
    map_matVec_isRect hx hw.2.2.1
  have hW : Mat.isRect (softmaxMat ops ((List.range n).map fun i =>
      (List.range n).map fun j => if i < j then -(10000000000 : α)
      else dot (matVec p.query (x.getD i [])) (matVec p.key (x.getD j [])) /
        ops.sqrt (p.outputKeyQueryDim : α))) n n :=
    softmaxMat_isRect ops (tab_isRect n n _)
  rw [shaForward, linApplyNB_eq hx.2, Option.bind_eq_bind, Option.some_bind,
    shaWeights_eq ops p hw hx hkq hn, Option.some_bind]
  rcases Nat.eq_zero_or_pos n with hn0 | hn0
  · have hxnil : x = [] := List.length_eq_zero.mp (hx.1.trans hn0)
    subst hxnil
    subst hn0
    refine ⟨[], ?_, rfl, by simp⟩
    simp [tMatMul, softmaxMat, isRectB, theCols]
  · obtain ⟨C, hC, hCr⟩ := tMatMul_some hW hV hn0
    exact ⟨C, hC, hCr⟩

end SuccessLemmas

section HeadLemmas

variable {α : Type} [LinearOrderedField α]

/-- Length of the causal mask buffer. -/
theorem causalMask_length (m : ℕ) : (causalMask m).length = m := by
  rw [causalMask_eq]
  simp

/-- Success and shapes of the per-head loop in `MultiHeadAttention.forward`
when every head is well formed with head dimension `hd ≥ 1`. -/
theorem headsOutputs_some (ops : ScalarOps α) {hs : List (SingleHeadAttention α)}
    {x : Mat α} {n d hd : ℕ} (hx : Mat.isRect x n d) (hhd : 1 ≤ hd)
    (hh : ∀ h ∈ hs, h.inputDim = d ∧ h.outputKeyQueryDim = hd ∧
      h.outputValueDim = hd ∧ h.wf ∧ n ≤ h.maxLen) :
    ∃ vals, headsOutputs ops hs x = some vals ∧ vals.length = hs.length ∧
      ∀ v ∈ vals, Mat.isRect v n hd := by
  induction hs with
  | nil => exact ⟨[], rfl, rfl, by simp⟩
  | cons h t ih =>
      obtain ⟨hid, hkqd, hvd, hwf, hml⟩ := hh h (List.mem_cons_self h t)
      obtain ⟨y, hy, hyr⟩ := shaForward_some ops h hwf (by rw [hid]; exact hx)
        (by rw [hkqd]; exact hhd) hml
      obtain ⟨vs, hvs, hvslen, hvsr⟩ :=
        ih (fun g hg => hh g (List.mem_cons_of_mem h hg))
      refine ⟨y :: vs, ?_, by simp [hvslen], ?_⟩
      · simp only [headsOutputs]
        rw [hy, Option.bind_eq_bind, Option.some_bind, hvs]
        rfl
      · intro v hv
        rcases List.mem_cons.mp hv with rfl | hv2
        · exact hvd ▸ hyr
        · exact hvsr v hv2

/-- Transpose of the empty matrix. -/
theorem matTranspose_nil : matTranspose ([] : Mat α) = [] := rfl

/-- With a zero key/query dimension (the degenerate `head_dim = 0` case) the
single-head forward pass fails on any nonempty input: the softmax weights
have zero-length rows while `V` has one row per token. -/
theorem shaForward_none_of_kq_zero (ops : ScalarOps α)
    (p : SingleHeadAttention α) {x : Mat α} {n : ℕ} (hw : p.wf)
    (hkq0 : p.outputKeyQueryDim = 0) (hx : Mat.isRect x n p.inputDim)
    (hn1 : 1 ≤ n) (hn : n ≤ p.maxLen) : shaForward ops p x = none := by
  have hkey : p.key = [] := List.length_eq_zero.mp (hw.1.1.trans hkq0)
  have hquery : p.query = [] := List.length_eq_zero.mp (hw.2.1.1.trans hkq0)
  have hsrow : ∀ i, (x.map fun _ => ([] : Vec α)).getD i [] = [] := by
    intro i
    rcases Nat.lt_or_ge i ((x.map fun _ => ([] : Vec α)).length) with h | h
    · rw [getD_lt _ _ h, List.getElem_map]
    · rw [List.getD_eq_getElem?_getD, List.getElem?_eq_none h]
      rfl
  have hTC : theCols (x.map fun _ => ([] : Vec α)) = 0 := by
    cases x <;> rfl
  have hB : matTranspose (x.map fun _ => ([] : Vec α)) = [] := by
    rw [matTranspose, hTC]
    rfl
  rw [shaForward, shaWeights, shaMaskedScores, shaScores, hkey, hquery]
  simp only [linApplyNB_eq hx.2, Option.bind_eq_bind, Option.some_bind,
    Option.pure_def, matVec, List.map_nil]
  rw [hB, tMatMul]
  rw [if_pos (by simp [isRectB])]
  simp only [matTranspose_nil, List.map_nil, List.map_map, Function.comp_def,
    Option.bind_eq_bind, Option.some_bind]
  have hslen : (x.map fun _ => ([] : Vec α)).length = n := by
    simpa using hx.1
  rw [maskedFill]
  have hMrows : ((causalMask p.maxLen).take
      (x.map fun _ => ([] : Vec α)).length).map
      (fun r => r.take (theCols (x.map fun _ => ([] : Vec α)))) =
      ((causalMask p.maxLen).take n).map (fun _ => []) := by
    rw [hTC, hslen]
    apply List.map_congr_left
    intro r _
    rfl
  rw [hMrows]
  have hRB : isRectB (((causalMask p.maxLen).take n).map
      fun _ => ([] : List ℕ)) = true := by
    cases h : (causalMask p.maxLen).take n with
    | nil => rfl
    | cons a t => simp [isRectB, theCols]
  have hMlen : (((causalMask p.maxLen).take n).map
      fun _ => ([] : List ℕ)).length = n := by
    simp only [List.length_map, List.length_take, causalMask_length]
    omega
  have hMc : theCols (((causalMask p.maxLen).take n).map
      fun _ => ([] : List ℕ)) = 0 := by
    cases h : (causalMask p.maxLen).take n with
    | nil => rfl
    | cons a t => simp [theCols, h]
  rw [if_pos (by rw [hRB, hMlen, hslen, hMc, hTC]; simp)]
  rw [Option.some_bind]
  apply tMatMul_none (r := softmaxVec ops [])
  · simp only [dropoutEval, softmaxMat]
    rw [hslen]
    refine List.mem_map.mpr ⟨[], ?_, rfl⟩
    refine List.mem_map.mpr ⟨0, List.mem_range.mpr hn1, ?_⟩
    rw [hsrow 0]
    simp
  · simp only [softmaxVec, List.map_nil, List.length_nil, List.length_map]
    rw [hx.1]
    omega

end HeadLemmas

section MhaLemmas

variable {α : Type} [LinearOrderedField α]

/-- Success and shape of `MultiHeadAttention.forward` when the head count
divides the input dimension: the output shape equals the input shape. -/
theorem mhaForward_some (ops : ScalarOps α) (p : MultiHeadAttention α)
    {x : Mat α} {n : ℕ} (hw : p.wf) (hh1 : 1 ≤ p.numHeads)
    (hd1 : 1 ≤ p.inputDim) (hdvd : p.numHeads ∣ p.inputDim)
    (hx : Mat.isRect x n p.inputDim) (hn : n ≤ 512) :
    ∃ y, mhaForward ops p x = some y ∧ Mat.isRect y n p.inputDim := by
  obtain ⟨hlen, hheads, hinF, houtF, hWr, hbias⟩ := hw
  have hhd : 1 ≤ p.inputDim / p.numHeads :=
    (Nat.one_le_div_iff (by omega)).mpr (Nat.le_of_dvd (by omega) hdvd)
  obtain ⟨vals, hvals, hvlen, hvr⟩ := headsOutputs_some ops hx hhd
    (fun h hh => by
      obtain ⟨h1, h2, h3, h4, h5⟩ := hheads h hh
      exact ⟨h1, h2, h3, h5, by rw [h4]; exact hn⟩)
  have hvne : vals ≠ [] := by
    intro hc
    rw [hc] at hvlen
    simp only [List.length_nil] at hvlen
    omega
  obtain ⟨C, hC, hCr⟩ := catLastDim_some hvne hvr
  have hCd : Mat.isRect C n p.inputDim := by
    rwa [hvlen, hlen, Nat.mul_div_cancel' hdvd] at hCr
  obtain ⟨y, hy, hyr⟩ := linApply_some (l := p.out) (by rw [hinF]; exact hCd)
    (by rw [houtF, hinF]; exact hWr) (by rw [hbias, houtF])
  refine ⟨y, ?_, by rw [← houtF]; exact hyr⟩
  simp only [mhaForward, hvals, hC, hy, Option.bind_eq_bind, Option.some_bind,
    Option.pure_def, dropoutEval]

/-- Failure of `MultiHeadAttention.forward` when the head count does not
divide the input dimension, on any nonempty well-shaped input. -/
theorem mhaForward_none (ops : ScalarOps α) (p : MultiHeadAttention α)
    {x : Mat α} {n : ℕ} (hw : p.wf) (hh1 : 1 ≤ p.numHeads)
    (hnd : ¬ p.numHeads ∣ p.inputDim) (hx : Mat.isRect x n p.inputDim)
    (hn1 : 1 ≤ n) (hn : n ≤ 512) : mhaForward ops p x = none := by
  obtain ⟨hlen, hheads, hinF, houtF, hWr, hbias⟩ := hw
  rcases Nat.eq_zero_or_pos (p.inputDim / p.numHeads) with hhd0 | hhd1
  · rcases hp : p.heads with _ | ⟨h0, t⟩
    · rw [hp] at hlen
      simp only [List.length_nil] at hlen
      omega
    · obtain ⟨h1, h2, h3, h4, h5⟩ := hheads h0 (hp ▸ List.mem_cons_self h0 t)
      have hfail : shaForward ops h0 x = none :=
        shaForward_none_of_kq_zero ops h0 h5 (by rw [h2, hhd0])
          (by rw [h1]; exact hx) hn1 (by rw [h4]; exact hn)
      rw [mhaForward, hp]
      simp only [headsOutputs, hfail, Option.bind_eq_bind, Option.none_bind]
  · obtain ⟨vals, hvals, hvlen, hvr⟩ := headsOutputs_some ops hx hhd1
      (fun h hh => by
        obtain ⟨h1, h2, h3, h4, h5⟩ := hheads h hh
        exact ⟨h1, h2, h3, h5, by rw [h4]; exact hn⟩)
    have hvne : vals ≠ [] := by
      intro hc
      rw [hc] at hvlen
      simp only [List.length_nil] at hvlen
      omega
    obtain ⟨C, hC, hCr⟩ := catLastDim_some hvne hvr
    have hCw : Mat.isRect C n (p.numHeads * (p.inputDim / p.numHeads)) := by
      rwa [hvlen, hlen] at hCr
    have hCne : p.numHeads * (p.inputDim / p.numHeads) ≠ p.inputDim := by
      intro hc
      exact hnd ⟨p.inputDim / p.numHeads, hc.symm⟩
    have hrow : C.getD 0 [] ∈ C := by
      have h0C : 0 < C.length := by rw [hCw.1]; omega
      rw [getD_lt _ _ h0C]
      exact List.getElem_mem h0C
    have hfail : linApply p.out C = none :=
      linApply_none hrow (by
        rw [row_length_of_isRect hCw (by omega), hinF]
        exact hCne)
    simp only [mhaForward, hvals, hC, hfail, Option.bind_eq_bind,
      Option.some_bind, Option.none_bind]

end MhaLemmas

/-- C5 is false as stated for `SingleHeadAttention` with an explicit
`output_value_dim` differing from `input_dim`: on a `(1, 2)` input the output
is `(1, 1)`, so the output shape does not equal the input shape. -/
theorem c5_counterexample :
    (shaForward (⟨Real.exp, Real.sqrt, id⟩ : ScalarOps ℝ)
        ⟨2, 2, 1, 1, [[0, 0], [0, 0]], [[0, 0], [0, 0]], [[0, 0]]⟩
        [[0, 0]]).map (fun A => A.map List.length) ≠
      some (([[0, 0]] : Mat ℝ).map List.length) := by
  simp only [shaForward, shaWeights, shaMaskedScores, shaScores, linApplyNB,
    matVec, tMatMul, matTranspose, theCols, isRectB, maskedFill, causalMask,
    triuN, matOnesN, softmaxMat, softmaxVec, dropoutEval, bcGet, dot_cons,
    dot_nil_left, dot_nil_right]
  norm_num [List.range_succ, List.all_cons, dot_cons, dot_nil_left,
    dot_nil_right]

/-- C5 (amended): the attention output shape equals the input shape for
`MultiHeadAttention` whenever `num_heads` divides the (positive) input
dimension and the sequence fits in the heads' `max_len = 512`; for
`SingleHeadAttention` the output shape is `(num_tokens, output_value_dim)`,
which equals the input shape exactly when `output_value_dim = input_dim`
(the default obtained by omitting the argument). -/
theorem c5_attention_output_shapes {α : Type} [LinearOrderedField α]
    (ops : ScalarOps α) :
    (∀ (p : MultiHeadAttention α) (x : Mat α) (n : ℕ), p.wf →
        1 ≤ p.numHeads → 1 ≤ p.inputDim → p.numHeads ∣ p.inputDim →
        Mat.isRect x n p.inputDim → n ≤ 512 →
        ∃ y, mhaForward ops p x = some y ∧ Mat.isRect y n p.inputDim) ∧
    (∀ (p : SingleHeadAttention α) (x : Mat α) (n : ℕ), p.wf →
        1 ≤ p.outputKeyQueryDim → Mat.isRect x n p.inputDim → n ≤ p.maxLen →
        ∃ y, shaForward ops p x = some y ∧ Mat.isRect y n p.outputValueDim) :=
  ⟨fun p x n hw h1 h2 h3 hx hn => mhaForward_some ops p hw h1 h2 h3 hx hn,
   fun p x n hw hkq hx hn => shaForward_some ops p hw hx hkq hn⟩

/-- Concrete instance of `c5_attention_output_shapes`: a one-head attention
layer on a `(1, 1)` input and a single head on the same input. -/
theorem c5_attention_output_shapes_witness :
    (∃ y, mhaForward (⟨Real.exp, Real.sqrt, id⟩ : ScalarOps ℝ)
        ⟨1, 1, [⟨1, 1, 1, 512, [[0]], [[0]], [[0]]⟩], ⟨1, 1, [[0]], [0]⟩⟩
        [[0]] = some y ∧ Mat.isRect y 1 1) ∧
    (∃ y, shaForward (⟨Real.exp, Real.sqrt, id⟩ : ScalarOps ℝ)
        ⟨1, 1, 1, 512, [[0]], [[0]], [[0]]⟩ [[0]] = some y ∧
        Mat.isRect y 1 1) := by
  constructor
  · exact (c5_attention_output_shapes (⟨Real.exp, Real.sqrt, id⟩ : ScalarOps ℝ)).1
      ⟨1, 1, [⟨1, 1, 1, 512, [[0]], [[0]], [[0]]⟩], ⟨1, 1, [[0]], [0]⟩⟩
      [[0]] 1
      (by decide) (by decide) (by decide) (by decide) (by decide) (by decide)
  · exact (c5_attention_output_shapes (⟨Real.exp, Real.sqrt, id⟩ : ScalarOps ℝ)).2
      ⟨1, 1, 1, 512, [[0]], [[0]], [[0]]⟩ [[0]] 1
      (by decide) (by decide) (by decide) (by decide)

/-- C9: `MultiHeadAttention` splits `head_dim = input_dim / num_heads`
(integer division, recorded in `MultiHeadAttention.wf`); when `num_heads`
does not divide `input_dim` the forward pass fails with a shape error on
every nonempty well-shaped input, and the concatenated head width
`num_heads * (input_dim / num_heads)` differs from `input_dim`. -/
theorem c9_nondividing_heads_fail {α : Type} [LinearOrderedField α]
    (ops : ScalarOps α) (p : MultiHeadAttention α) {x : Mat α} {n : ℕ}
    (hw : p.wf) (hh1 : 1 ≤ p.numHeads) (hnd : ¬ p.numHeads ∣ p.inputDim)
    (hx : Mat.isRect x n p.inputDim) (hn1 : 1 ≤ n) (hn : n ≤ 512) :
    mhaForward ops p x = none ∧
      p.numHeads * (p.inputDim / p.numHeads) ≠ p.inputDim :=
  ⟨mhaForward_none ops p hw hh1 hnd hx hn1 hn,
   fun hc => hnd ⟨p.inputDim / p.numHeads, hc.symm⟩⟩

/-- Concrete instance of `c9_nondividing_heads_fail`: two heads on an input
dimension of three. -/
theorem c9_nondividing_heads_fail_witness :
    mhaForward (⟨Real.exp, Real.sqrt, id⟩ : ScalarOps ℝ)
      ⟨3, 2, [⟨3, 1, 1, 512, [[0, 0, 0]], [[0, 0, 0]], [[0, 0, 0]]⟩,
        ⟨3, 1, 1, 512, [[0, 0, 0]], [[0, 0, 0]], [[0, 0, 0]]⟩],
        ⟨3, 3, [[0, 0, 0], [0, 0, 0], [0, 0, 0]], [0, 0, 0]⟩⟩
      [[0, 0, 0]] = none ∧ 2 * (3 / 2) ≠ 3 := by
  exact c9_nondividing_heads_fail (x := [[0, 0, 0]]) (n := 1)
    (⟨Real.exp, Real.sqrt, id⟩ : ScalarOps ℝ)
    ⟨3, 2, [⟨3, 1, 1, 512, [[0, 0, 0]], [[0, 0, 0]], [[0, 0, 0]]⟩,
      ⟨3, 1, 1, 512, [[0, 0, 0]], [[0, 0, 0]], [[0, 0, 0]]⟩],
      ⟨3, 3, [[0, 0, 0], [0, 0, 0], [0, 0, 0]], [0, 0, 0]⟩⟩
    (by decide) (by decide) (by decide) (by decide) (by decide) (by decide)

section LayerNormLemmas

variable {α : Type} [LinearOrderedField α]

/-- Zipping with a replicated constant is a map. -/
theorem zipWith_replicate_right {β γ δ : Type} (f : β → γ → δ) (c : γ) :
    ∀ (l : List β) (d : ℕ), l.length = d →
      List.zipWith f l (List.replicate d c) = l.map (fun t => f t c)
  | [], _, h => by simp
  | a :: t, d, h => by
    cases d with
    | zero => simp at h
    | succ d2 =>
        simp only [List.replicate_succ, List.zipWith_cons_cons, List.map_cons]
        rw [zipWith_replicate_right f c t d2 (by simpa using h)]

/-- Dividing each mapped entry divides the sum. -/
theorem sum_map_div (s : α) (f : α → α) :
    ∀ l : List α, (l.map fun t => f t / s).sum = (l.map f).sum / s
  | [] => by simp
  | a :: t => by
    simp only [List.map_cons, List.sum_cons, sum_map_div s f t]
    rw [add_div]

/-- Summing deviations from a constant. -/
theorem sum_map_sub_const (c : α) :
    ∀ l : List α, (l.map fun t => t - c).sum = l.sum - (l.length : α) * c
  | [] => by simp
  | a :: t => by
    simp only [List.map_cons, List.sum_cons, sum_map_sub_const c t,
      List.length_cons]
    push_cast
    ring

/-- The biased variance is nonnegative. -/
theorem vecVar_nonneg (v : Vec α) : 0 ≤ vecVar v := by
  unfold vecVar
  apply div_nonneg
  · apply List.sum_nonneg
    intro t ht
    simp only [List.mem_map] at ht
    obtain ⟨u, _, rfl⟩ := ht
    exact sq_nonneg _
  · exact Nat.cast_nonneg _

/-- Unfolding equation for the biased variance. -/
theorem vecVar_eq (v : Vec α) :
    vecVar v = ((v.map (fun t => (t - vecMean v) ^ 2)).sum) / (v.length : α) :=
  rfl

/-- Mean and biased variance of one normalised row: the mean is exactly zero
and the variance is `var / (var + eps)`. -/
theorem lnNormRow_moments (ops : ScalarOps α)
    (hs : ∀ y : α, 0 ≤ y → ops.sqrt y ^ 2 = y) {r : Vec α} {d : ℕ}
    (hr : r.length = d) (hd : 1 ≤ d) {eps : α} (he : 0 < eps) :
    vecMean (lnNormRow ops eps r) = 0 ∧
      vecVar (lnNormRow ops eps r) = vecVar r / (vecVar r + eps) := by
  have hdz : (d : α) ≠ 0 := Nat.cast_ne_zero.mpr (by omega)
  have hmean : vecMean (lnNormRow ops eps r) = 0 := by
    unfold vecMean lnNormRow
    rw [sum_map_div, sum_map_sub_const]
    rw [List.length_map, hr]
    unfold vecMean
    rw [hr]
    field_simp
  refine ⟨hmean, ?_⟩
  have hpos : 0 < vecVar r + eps := by
    have := vecVar_nonneg r
    linarith
  have hs2 : ops.sqrt (vecVar r + eps) ^ 2 = vecVar r + eps := hs _ (le_of_lt hpos)
  have hlen : (lnNormRow ops eps r).length = d := by
    simp [lnNormRow, hr]
  rw [vecVar_eq (lnNormRow ops eps r), hlen]
  simp only [hmean]
  have hmap : (lnNormRow ops eps r).map (fun t => (t - 0) ^ 2) =
      r.map fun t => ((t - vecMean r) ^ 2) / ops.sqrt (vecVar r + eps) ^ 2 := by
    unfold lnNormRow
    rw [List.map_map]
    apply List.map_congr_left
    intro t _
    simp only [Function.comp_apply, sub_zero]
    rw [div_pow]
  rw [hmap,
    sum_map_div (ops.sqrt (vecVar r + eps) ^ 2) (fun t => (t - vecMean r) ^ 2) r,
    hs2]
  have hS : (r.map fun t => (t - vecMean r) ^ 2).sum = vecVar r * (d : α) := by
    rw [vecVar_eq r, hr]
    field_simp
  rw [hS]
  field_simp
  ring

end LayerNormLemmas

/-- C6 (amended): with `gamma` all ones and `beta` all zeros, each output row
of `LayerNorm.forward` has mean exactly zero, and biased variance exactly
`var / (var + eps)` where `var` is the input row's biased variance — equal to
one only in the limit `eps → 0`, not exactly (the module divides by
`sqrt(var + eps)` with `eps = 1e-05 > 0`). -/
theorem c6_layernorm_moments {α : Type} [LinearOrderedField α]
    (ops : ScalarOps α) (hs : ∀ y : α, 0 ≤ y → ops.sqrt y ^ 2 = y)
    (p : LayerNormP α) {x : Mat α} {n d : ℕ} (hx : Mat.isRect x n d)
    (hd : 1 ≤ d) (haff : p.elementwiseAffine = true)
    (hg : p.gamma = List.replicate d 1) (hb : p.beta = List.replicate d 0)
    (he : 0 < p.eps) :
    ∃ y, lnForward ops p x = some y ∧ ∀ i, i < n →
      vecMean (y.getD i []) = 0 ∧
      vecVar (y.getD i []) =
        vecVar (x.getD i []) / (vecVar (x.getD i []) + p.eps) := by
  have hguard : (x.all fun r =>
      r.length == p.gamma.length && r.length == p.beta.length) = true := by
    simp only [List.all_eq_true, Bool.and_eq_true, beq_iff_eq]
    intro r hr
    rw [hx.2 r hr, hg, hb]
    simp
  have hrow : ∀ r ∈ x,
      vAdd (List.zipWith (· * ·) (lnNormRow ops p.eps r) p.gamma) p.beta =
        lnNormRow ops p.eps r := by
    intro r hr
    have hlen : (lnNormRow ops p.eps r).length = d := by
      simp [lnNormRow, hx.2 r hr]
    rw [hg, hb, zipWith_replicate_right _ _ _ _ hlen]
    unfold vAdd
    rw [zipWith_replicate_right _ _ _ _ (by simpa using hlen)]
    simp
  rw [lnForward, if_pos haff, if_pos hguard]
  refine ⟨_, rfl, ?_⟩
  intro i hi
  have hix : i < x.length := by rw [hx.1]; exact hi
  rw [getD_map _ _ _ [] hix]
  have hmem : x.getD i [] ∈ x := by
    rw [getD_lt _ _ hix]
    exact List.getElem_mem hix
  rw [hrow _ hmem]
  exact lnNormRow_moments ops hs (hx.2 _ hmem) hd he

/-- Concrete instance of `c6_layernorm_moments` on a single-feature row. -/
theorem c6_layernorm_moments_witness :
    ∃ y, lnForward (⟨Real.exp, Real.sqrt, id⟩ : ScalarOps ℝ)
        ⟨1, true, [1], [0]⟩ [[0]] = some y ∧ ∀ i, i < 1 →
      vecMean (y.getD i []) = 0 ∧
      vecVar (y.getD i []) =
        vecVar (([[(0 : ℝ)]]).getD i []) /
          (vecVar (([[(0 : ℝ)]]).getD i []) + 1) :=
  c6_layernorm_moments (⟨Real.exp, Real.sqrt, id⟩ : ScalarOps ℝ)
    (fun y hy => Real.sq_sqrt hy) ⟨1, true, [1], [0]⟩ (x := [[0]])
    (n := 1) (d := 1) (by decide) (by decide) rfl rfl rfl (by norm_num)

/-- C6 is false as stated: with `gamma = 1`, `beta = 0` and the default
`eps = 1e-05`, the input row `[0, 2]` (biased variance 1) yields an output row
of biased variance `100000/100001 ≠ 1`, because the normalisation divides by
`sqrt(var + eps)`, not `sqrt(var)`. -/
theorem c6_counterexample :
    (lnForward (⟨Real.exp, Real.sqrt, id⟩ : ScalarOps ℝ)
        ⟨1/100000, true, [1, 1], [0, 0]⟩ [[0, 2]]).map (fun y => y.map vecVar) ≠
      some [1] := by
  simp only [lnForward, lnNormRow, vecMean, vecVar, vAdd]
  norm_num [List.all_cons]
  have hrw : (-1 / (Real.sqrt 100001 / Real.sqrt 100000) : ℝ) =
      -(Real.sqrt 100000 / Real.sqrt 100001) := by
    rw [neg_div, one_div_div]
  rw [hrw]
  have ha : (Real.sqrt 100000 / Real.sqrt 100001) ^ 2 = (100000 : ℝ) / 100001 := by
    rw [div_pow, Real.sq_sqrt (by norm_num), Real.sq_sqrt (by norm_num)]
  have hvar : vecVar [-(Real.sqrt 100000 / Real.sqrt 100001),
      Real.sqrt 100000 / Real.sqrt 100001] =
      (Real.sqrt 100000 / Real.sqrt 100001) ^ 2 := by
    rw [vecVar_eq]
    simp only [vecMean]
    norm_num
  rw [hvar, ha]
  norm_num

section TransformerSpec

variable {α : Type} [LinearOrderedField α]

/-- The spec's reading of a transformer block, written as the claim states
it: `feedforward(norm2(attention(norm1(x)) + x)) + (attention(norm1(x)) + x)`
with every subterm evaluated where it occurs (the shared subterm
`attention(norm1(x)) + x` appears twice). -/
def tlForwardSpec (ops : ScalarOps α) (l : TransformerLayer α) (x : Mat α) :
    Option (Mat α) := do
  let n1 ← lnForward ops l.norm1 x
  let att ← mhaForward ops l.attention n1
  let res1 ← tAdd att x
  let n2 ← lnForward ops l.norm2 res1
  let f ← ffForward ops l.feedforward n2
  let n1b ← lnForward ops l.norm1 x
  let attb ← mhaForward ops l.attention n1b
  let res1b ← tAdd attb x
  tAdd f res1b

end TransformerSpec

/-- C4: `TransformerLayer.forward` returns
`feedforward(norm2(attention(norm1(x)) + x)) + (attention(norm1(x)) + x)`:
the input is normalised before each sublayer and each sublayer output is
added back to the unnormalised residual stream. -/
theorem c4_transformer_prenorm_residual {α : Type} [LinearOrderedField α]
    (ops : ScalarOps α) (l : TransformerLayer α) (x : Mat α) :
    tlForward ops l x = tlForwardSpec ops l x := by
  rw [tlForward, tlForwardSpec]
  simp only [Option.bind_eq_bind]
  cases h1 : lnForward ops l.norm1 x with
  | none => rfl
  | some n1 =>
    simp only [Option.some_bind]
    cases h2 : mhaForward ops l.attention n1 with
    | none => rfl
    | some a =>
      simp only [Option.some_bind]
      cases h3 : tAdd a x with
      | none => rfl
      | some cache =>
        simp only [Option.some_bind]

section MiniGPTSpec

variable {α : Type} [LinearOrderedField α]

/-- Well-formedness of the embedding tables created by `MiniGPT.__init__`:
`nn.Embedding(vocab_size, embed_dim)` and
`nn.Embedding(context_length, embed_dim)`. -/
def MiniGPT.wfEmbed (p : MiniGPT α) : Prop :=
  Mat.isRect p.vocabEmbedding p.vocabSize p.embedDim ∧
  Mat.isRect p.positionalEmbedding p.contextLength p.embedDim

instance (p : MiniGPT α) : Decidable p.wfEmbed := by
  unfold MiniGPT.wfEmbed
  infer_instance

/-- The spec's reading of the `MiniGPT` pipeline: token embedding lookup,
addition of the positional embeddings for positions `0..seq_len-1`
(a plain elementwise addition), embedding dropout, the transformer layers in
order, the final `prehead_norm`, and the linear head — nothing else. -/
def miniGPTSpecPipeline (ops : ScalarOps α) (p : MiniGPT α) (x : List ℕ) :
    Option (Mat α) := do
  let emb ← embLookup p.vocabEmbedding x
  let pos ← embLookup p.positionalEmbedding (List.range x.length)
  let h1 := dropoutEval (mAdd emb pos)
  let h3 ← runLayers ops p.layers h1
  let h4 ← lnForward ops p.preheadNorm h3
  linApply p.head h4

/-- Equal-shaped tensors add without broadcasting: `tAdd` is `mAdd`. -/
theorem tAdd_eq_mAdd {A B : Mat α} {n d : ℕ} (hA : Mat.isRect A n d)
    (hB : Mat.isRect B n d) : tAdd A B = some (mAdd A B) := by
  rcases Nat.eq_zero_or_pos n with hn0 | hn0
  · have hAn : A = [] := List.length_eq_zero.mp (hA.1.trans hn0)
    have hBn : B = [] := List.length_eq_zero.mp (hB.1.trans hn0)
    subst hAn
    subst hBn
    simp [tAdd, mAdd, isRectB, theCols]
  · have hcA : theCols A = d := theCols_of_isRect hA hn0
    have hcB : theCols B = d := theCols_of_isRect hB hn0
    rw [tAdd, if_pos (by
      rw [isRectB_of_isRect hA, isRectB_of_isRect hB, hA.1, hB.1, hcA, hcB]
      simp)]
    congr 1
    rw [hA.1, hB.1, hcA, hcB, Nat.max_self, Nat.max_self]
    apply List.ext_getElem
    · simp only [List.length_range, List.length_map, mAdd, List.length_zipWith,
        hA.1, hB.1, Nat.min_self]
    · intro i hi1 hi2
      have hin : i < n := by simpa using hi1
      simp only [List.getElem_map, List.getElem_range]
      have hrowA : i < A.length := by rw [hA.1]; exact hin
      have hrowB : i < B.length := by rw [hB.1]; exact hin
      simp only [mAdd]
      rw [List.getElem_zipWith]
      apply List.ext_getElem
      · simp only [List.length_map, List.length_range, vAdd, List.length_zipWith]
        rw [hA.2 _ (List.getElem_mem hrowA), hB.2 _ (List.getElem_mem hrowB),
          Nat.min_self]
      · intro j hj1 hj2
        have hjd : j < d := by simpa using hj1
        simp only [List.getElem_map, List.getElem_range]
        rw [bcGet_eq 0 hA hin hjd, bcGet_eq 0 hB hin hjd]
        simp only [vAdd]
        rw [List.getElem_zipWith]
        rw [getD_lt _ _ hrowA, getD_lt _ _ hrowB]
        rw [getD_lt _ _ (by rw [hA.2 _ (List.getElem_mem hrowA)]; exact hjd),
          getD_lt _ _ (by rw [hB.2 _ (List.getElem_mem hrowB)]; exact hjd)]

end MiniGPTSpec

/-- C3: for every input that fits in the context window, `MiniGPT.forward`
computes exactly the spec's fixed pipeline: embed, add the learned positional
embeddings for positions `0..seq_len-1`, embedding dropout, the `N`
transformer layers in order, the final `prehead_norm`, and the linear head —
no other transformation. -/
theorem c3_minigpt_pipeline {α : Type} [LinearOrderedField α]
    (ops : ScalarOps α) (p : MiniGPT α) (x : List ℕ) (hw : p.wfEmbed)
    (hlen : x.length ≤ p.contextLength) :
    miniGPTForward ops p x = miniGPTSpecPipeline ops p x := by
  rw [miniGPTForward, miniGPTSpecPipeline]
  by_cases hg : (x.all fun i => decide (i < p.vocabEmbedding.length)) = true
  · have he : embLookup p.vocabEmbedding x =
        some (x.map fun i => p.vocabEmbedding.getD i []) := by
      rw [embLookup, if_pos hg]
    rw [he]
    simp only [Option.bind_eq_bind, Option.some_bind]
    have hposFull : embLookup p.positionalEmbedding
        (List.range p.contextLength) =
        some ((List.range p.contextLength).map
          fun i => p.positionalEmbedding.getD i []) := by
      rw [embLookup, if_pos (by
        simp only [List.all_eq_true, decide_eq_true_eq]
        intro i hi
        rw [hw.2.1]
        exact List.mem_range.mp hi)]
    have hpos : embLookup p.positionalEmbedding (List.range x.length) =
        some ((List.range x.length).map
          fun i => p.positionalEmbedding.getD i []) := by
      rw [embLookup, if_pos (by
        simp only [List.all_eq_true, decide_eq_true_eq]
        intro i hi
        rw [hw.2.1]
        exact lt_of_lt_of_le (List.mem_range.mp hi) hlen)]
    rw [hposFull, hpos]
    simp only [Option.some_bind]
    have hlenemb : (x.map fun i => p.vocabEmbedding.getD i []).length =
        x.length := by
      simp
    rw [hlenemb]
    have htake : ((List.range p.contextLength).map
        fun i => p.positionalEmbedding.getD i []).take x.length =
        (List.range x.length).map fun i => p.positionalEmbedding.getD i [] := by
      rw [← List.map_take, List.take_range, Nat.min_eq_left hlen]
    rw [htake]
    have hembr : Mat.isRect (x.map fun i => p.vocabEmbedding.getD i [])
        x.length p.embedDim := by
      constructor
      · simp
      · intro r hr
        simp only [List.mem_map] at hr
        obtain ⟨i, hix, rfl⟩ := hr
        have hiv : i < p.vocabEmbedding.length := by
          have := List.all_eq_true.mp hg i hix
          simpa using this
        rw [getD_lt _ _ hiv]
        exact hw.1.2 _ (List.getElem_mem hiv)
    have hposr : Mat.isRect ((List.range x.length).map
        fun i => p.positionalEmbedding.getD i []) x.length p.embedDim := by
      constructor
      · simp
      · intro r hr
        simp only [List.mem_map] at hr
        obtain ⟨i, hix, rfl⟩ := hr
        have hiv : i < p.positionalEmbedding.length := by
          rw [hw.2.1]
          exact lt_of_lt_of_le (List.mem_range.mp hix) hlen
        rw [getD_lt _ _ hiv]
        exact hw.2.2 _ (List.getElem_mem hiv)
    rw [tAdd_eq_mAdd hembr hposr]
    simp only [Option.some_bind]
  · have he : embLookup p.vocabEmbedding x = none := by
      rw [embLookup, if_neg hg]
    rw [he]
    rfl

/-- Concrete instance of `c3_minigpt_pipeline` on a one-token input to a
zero-layer configuration. -/
theorem c3_minigpt_pipeline_witness :
    miniGPTForward (⟨Real.exp, Real.sqrt, id⟩ : ScalarOps ℝ)
        ⟨1, 1, 1, [[0]], [[0]], [], ⟨1, true, [1], [0]⟩, ⟨1, 1, [[0]], [0]⟩⟩
        [0] =
      miniGPTSpecPipeline (⟨Real.exp, Real.sqrt, id⟩ : ScalarOps ℝ)
        ⟨1, 1, 1, [[0]], [[0]], [], ⟨1, true, [1], [0]⟩, ⟨1, 1, [[0]], [0]⟩⟩
        [0] :=
  c3_minigpt_pipeline (⟨Real.exp, Real.sqrt, id⟩ : ScalarOps ℝ)
    ⟨1, 1, 1, [[0]], [[0]], [], ⟨1, true, [1], [0]⟩, ⟨1, 1, [[0]], [0]⟩⟩
    [0] (by decide) (by decide)

/-- C10 (amended): when `context_length ≥ 2`, every input longer than
`context_length` makes the positional addition fail (the sliced positional
table has `context_length` rows against `seq_len` embedded rows, and neither
is 1), so `MiniGPT.forward` raises a shape error rather than producing
logits.  (For `context_length = 1` broadcasting rescues the addition; see
`c10_counterexample`.) -/
theorem c10_context_overflow {α : Type} [LinearOrderedField α]
    (ops : ScalarOps α) (p : MiniGPT α) (x : List ℕ)
    (hpos : p.positionalEmbedding.length = p.contextLength)
    (hcl : 2 ≤ p.contextLength) (hx : p.contextLength < x.length) :
    miniGPTForward ops p x = none := by
  rw [miniGPTForward]
  by_cases hg : (x.all fun i => decide (i < p.vocabEmbedding.length)) = true
  · have he : embLookup p.vocabEmbedding x =
        some (x.map fun i => p.vocabEmbedding.getD i []) := by
      rw [embLookup, if_pos hg]
    rw [he]
    simp only [Option.bind_eq_bind, Option.some_bind]
    have hposFull : embLookup p.positionalEmbedding
        (List.range p.contextLength) =
        some ((List.range p.contextLength).map
          fun i => p.positionalEmbedding.getD i []) := by
      rw [embLookup, if_pos (by
        simp only [List.all_eq_true, decide_eq_true_eq]
        intro i hi
        rw [hpos]
        exact List.mem_range.mp hi)]
    rw [hposFull]
    simp only [Option.some_bind]
    have hlA : (x.map fun i => p.vocabEmbedding.getD i []).length = x.length := by
      simp
    have hlB : (((List.range p.contextLength).map
        fun i => p.positionalEmbedding.getD i []).take
          (x.map fun i => p.vocabEmbedding.getD i []).length).length =
        p.contextLength := by
      simp only [List.length_take, List.length_map, List.length_range, hlA]
      omega
    have hadd : tAdd (x.map fun i => p.vocabEmbedding.getD i [])
        (((List.range p.contextLength).map
          fun i => p.positionalEmbedding.getD i []).take
            (x.map fun i => p.vocabEmbedding.getD i []).length) = none := by
      rw [tAdd, if_neg]
      intro hc
      simp only [Bool.and_eq_true, Bool.or_eq_true, beq_iff_eq] at hc
      obtain ⟨⟨⟨_, _⟩, hrows⟩, _⟩ := hc
      rw [hlB, hlA] at hrows
      omega
    rw [hadd]
    rfl
  · rw [embLookup, if_neg hg]
    rfl

/-- Concrete instance of `c10_context_overflow`: a three-token input to a
two-position context. -/
theorem c10_context_overflow_witness :
    miniGPTForward (⟨Real.exp, Real.sqrt, id⟩ : ScalarOps ℝ)
      ⟨1, 1, 2, [[0]], [[0], [0]], [], ⟨1/100000, true, [1], [0]⟩,
        ⟨1, 1, [[0]], [0]⟩⟩ [0, 0, 0] = none :=
  c10_context_overflow (⟨Real.exp, Real.sqrt, id⟩ : ScalarOps ℝ)
    ⟨1, 1, 2, [[0]], [[0], [0]], [], ⟨1/100000, true, [1], [0]⟩,
      ⟨1, 1, [[0]], [0]⟩⟩ [0, 0, 0] (by decide) (by decide) (by decide)

/-- C10 is false as stated for `context_length = 1`: the sliced positional
table then has a single row, torch broadcasting stretches it across the
longer sequence, and `MiniGPT.forward` happily produces logits for a
two-token input (the parameter values are irrelevant to this shape
behaviour; zeros keep the arithmetic readable). -/
theorem c10_counterexample :
    miniGPTForward (⟨Real.exp, Real.sqrt, id⟩ : ScalarOps ℝ)
      ⟨1, 1, 1, [[0]], [[0]], [], ⟨1/100000, true, [1], [0]⟩,
        ⟨1, 1, [[0]], [0]⟩⟩ [0, 0] = some [[0], [0]] := by
  simp only [miniGPTForward, embLookup, tAdd, bcGet, isRectB, theCols,
    runLayers, lnForward, lnNormRow, vecMean, vecVar, vAdd, linApply, matVec,
    dot_cons, dot_nil_left, dot_nil_right, dropoutEval]
  norm_num [List.range_succ, List.all_cons, dot_cons, dot_nil_left,
    dot_nil_right]

section GenerateLemmas

variable {α : Type} [LinearOrderedField α]

/-- A successful `genStep` appends exactly one sampled token. -/
theorem genStep_shape (ops : ScalarOps α) (p : MiniGPT α)
    (oracle : ℕ → Vec α → ℕ) (i : ℕ) (s r : List ℕ)
    (h : genStep ops p oracle i s = some r) : ∃ t, r = s ++ [t] := by
  rw [genStep] at h
  cases hf : miniGPTForward ops p (lastN 10 s) with
  | none =>
      rw [hf] at h
      simp at h
  | some out =>
      rw [hf] at h
      simp only [Option.bind_eq_bind, Option.some_bind, Option.pure_def,
        Option.some.injEq] at h
      exact ⟨_, h.symm⟩

/-- Length and prefix preservation of the generation loop. -/
theorem genLoop_spec (ops : ScalarOps α) (p : MiniGPT α)
    (oracle : ℕ → Vec α → ℕ) :
    ∀ (k i : ℕ) (s r : List ℕ), genLoop ops p oracle i k s = some r →
      r.length = s.length + k ∧ r.take s.length = s
  | 0, i, s, r, h => by
      simp only [genLoop, Option.some.injEq] at h
      subst h
      exact ⟨rfl, by simp⟩
  | k + 1, i, s, r, h => by
      rw [genLoop] at h
      cases hst : genStep ops p oracle i s with
      | none =>
          rw [hst] at h
          simp at h
      | some s2 =>
          rw [hst] at h
          simp only [Option.bind_eq_bind, Option.some_bind] at h
          obtain ⟨t, rfl⟩ := genStep_shape ops p oracle i s s2 hst
          obtain ⟨hl, hp⟩ := genLoop_spec ops p oracle k (i + 1) (s ++ [t]) r h
          constructor
          · rw [hl]
            simp only [List.length_append, List.length_singleton]
            omega
          · have h2 : r.take (s ++ [t]).length = s ++ [t] := hp
            have h3 : r.take s.length = (r.take (s ++ [t]).length).take s.length := by
              rw [List.take_take]
              congr 1
              simp only [List.length_append, List.length_singleton]
              omega
            rw [h3, h2]
            exact List.take_left s [t]

/-- The sampled token of one generation step depends only on the last ten
tokens of the running stream. -/
theorem genStep_lastN (ops : ScalarOps α) (p : MiniGPT α)
    (oracle : ℕ → Vec α → ℕ) (i : ℕ) {s1 s2 : List ℕ}
    (h : lastN 10 s1 = lastN 10 s2) :
    (genStep ops p oracle i s1).map (fun r => r.drop s1.length) =
      (genStep ops p oracle i s2).map (fun r => r.drop s2.length) := by
  rw [genStep, genStep, h]
  cases miniGPTForward ops p (lastN 10 s2) with
  | none => rfl
  | some out =>
      simp only [Option.bind_eq_bind, Option.some_bind, Option.pure_def,
        Option.map_some', Option.some.injEq]
      rw [List.drop_left, List.drop_left]

end GenerateLemmas

/-- C8: for every context and every `max_new_tokens`, a successful
`MiniGPT.generate` returns a sequence of length
`len(context) + max_new_tokens` whose first `len(context)` entries are the
context unchanged; each iteration appends exactly one sampled token, and the
token sampled in a step depends only on the last ten tokens of the running
sequence (the model input is `input_stream[-10:]`). -/
theorem c8_generate_spec {α : Type} [LinearOrderedField α] (ops : ScalarOps α)
    (p : MiniGPT α) (oracle : ℕ → Vec α → ℕ) :
    (∀ (context : List ℕ) (k : ℕ) (res : List ℕ),
        miniGPTGenerate ops p oracle context k = some res →
        res.length = context.length + k ∧ res.take context.length = context) ∧
    (∀ (i : ℕ) (s r : List ℕ), genStep ops p oracle i s = some r →
        ∃ t, r = s ++ [t]) ∧
    (∀ (i : ℕ) (s1 s2 : List ℕ), lastN 10 s1 = lastN 10 s2 →
        (genStep ops p oracle i s1).map (fun r => r.drop s1.length) =
          (genStep ops p oracle i s2).map (fun r => r.drop s2.length)) :=
  ⟨fun context k res h => genLoop_spec ops p oracle k 0 context res h,
   fun i s r h => genStep_shape ops p oracle i s r h,
   fun i s1 s2 h => genStep_lastN ops p oracle i h⟩

/-- Evaluation of one generation run of the zero-layer single-token model:
the sampled token (oracle choice 0) is appended once. -/
theorem miniGPTGenerate_concrete :
    miniGPTGenerate (⟨Real.exp, Real.sqrt, id⟩ : ScalarOps ℝ)
      ⟨1, 1, 1, [[0]], [[0]], [], ⟨1/100000, true, [1], [0]⟩,
        ⟨1, 1, [[0]], [0]⟩⟩ (fun _ _ => 0) [0] 1 = some [0, 0] := by
  simp only [miniGPTGenerate, genLoop, genStep, lastN, miniGPTForward,
    embLookup, tAdd, bcGet, isRectB, theCols, runLayers, lnForward, lnNormRow,
    vecMean, vecVar, vAdd, linApply, matVec, dot_cons, dot_nil_left,
    dot_nil_right, dropoutEval, softmaxMat, softmaxVec]
  norm_num [List.range_succ, List.all_cons, dot_cons, dot_nil_left,
    dot_nil_right]

/-- Concrete instance of `c8_generate_spec`: the run above has length
`1 + 1` and preserves its one-token context. -/
theorem c8_generate_spec_witness :
    ([0, 0] : List ℕ).length = ([0] : List ℕ).length + 1 ∧
      ([0, 0] : List ℕ).take ([0] : List ℕ).length = [0] :=
  (c8_generate_spec (⟨Real.exp, Real.sqrt, id⟩ : ScalarOps ℝ)
    ⟨1, 1, 1, [[0]], [[0]], [], ⟨1/100000, true, [1], [0]⟩,
      ⟨1, 1, [[0]], [0]⟩⟩ (fun _ _ => 0)).1 [0] 1 [0, 0]
    miniGPTGenerate_concrete

/-- Reference-and-store model for C7.  A parameter tensor lives in a store
cell addressed by a natural number; module attributes such as
`self.head.weight` are references (cell addresses).  `MiniGPT.__init__`
allocates cells in registration order — vocabulary embedding, positional
embedding, the transformer-layer parameters, head weight, head bias — and
the statement `self.head.weight = self.vocab_embedding.weight` executed when
`config.weight_tie` holds rebinds the head-weight reference to the
vocabulary embedding's cell (the freshly allocated head cell is dropped). -/
structure ParamRefs where
  vocabW : ℕ
  posW : ℕ
  headW : ℕ
  headB : ℕ
  layerRefs : List ℕ

/-- The references produced by `MiniGPT.__init__` for a model whose
transformer layers hold `numLayerParams` parameter tensors. -/
def miniGPTBuildRefs (numLayerParams : ℕ) (weightTie : Bool) : ParamRefs :=
  { vocabW := 0
    posW := 1
    layerRefs := (List.range numLayerParams).map (fun i => i + 2)
    headW := if weightTie then 0 else numLayerParams + 2
    headB := numLayerParams + 3 }

/-- One in-place write (`torch.nn.init.normal_` or `zeros_`) to a cell: the
store changes, the references do not. -/
def writeCell {β : Type} (s : ℕ → β) (r : ℕ) (v : β) : ℕ → β :=
  fun i => if i = r then v else s i

/-- Executing a list of in-place writes in order. -/
def runWrites {β : Type} : List (ℕ × β) → (ℕ → β) → (ℕ → β)
  | [], s => s
  | (r, v) :: rest, s => runWrites rest (writeCell s r v)

/-- The order in which `self.apply(self._init_weights)` visits the
parameters: children in registration order, so the vocabulary embedding is
initialised first and the (possibly tied) head weight near the end. -/
def initPassRefs (refs : ParamRefs) : List ℕ :=
  [refs.vocabW, refs.posW] ++ refs.layerRefs ++ [refs.headW, refs.headB]

/-- C7: with `config.weight_tie` set, after `MiniGPT.__init__` the head
weight and the vocabulary embedding weight are one and the same storage cell
(aliases, not copies), and since `_init_weights` acts by in-place writes —
the `initPassRefs` pass, or indeed any sequence of writes — reading either
reference afterwards yields the same tensor. -/
theorem c7_weight_tying_aliases {β : Type} (numLayerParams : ℕ)
    (s0 : ℕ → β) :
    (miniGPTBuildRefs numLayerParams true).headW =
      (miniGPTBuildRefs numLayerParams true).vocabW ∧
    (∀ ws : List (ℕ × β),
      runWrites ws s0 (miniGPTBuildRefs numLayerParams true).headW =
        runWrites ws s0 (miniGPTBuildRefs numLayerParams true).vocabW) ∧
    (∀ vals : List β,
      runWrites ((initPassRefs (miniGPTBuildRefs numLayerParams true)).zip vals)
          s0 (miniGPTBuildRefs numLayerParams true).headW =
        runWrites ((initPassRefs (miniGPTBuildRefs numLayerParams true)).zip vals)
          s0 (miniGPTBuildRefs numLayerParams true).vocabW) :=
  ⟨rfl, fun _ => rfl, fun _ => rfl⟩

/-- C8 is false as stated for configurations whose positional table cannot
cover the sliced context: with `context_length = 2` and a three-token
context, the forward pass inside the first iteration raises a shape error,
so `generate` raises instead of returning a sequence. -/
theorem c8_counterexample :
    miniGPTGenerate (⟨Real.exp, Real.sqrt, id⟩ : ScalarOps ℝ)
      ⟨1, 1, 2, [[0]], [[0], [0]], [], ⟨1/100000, true, [1], [0]⟩,
        ⟨1, 1, [[0]], [0]⟩⟩ (fun _ _ => 0) [0, 0, 0] 1 = none := by
  simp only [miniGPTGenerate, genLoop, genStep, lastN, miniGPTForward,
    embLookup, tAdd, bcGet, isRectB, theCols, runLayers, lnForward, lnNormRow,
    vecMean, vecVar, vAdd, linApply, matVec, dot_cons, dot_nil_left,
    dot_nil_right, dropoutEval, softmaxMat, softmaxVec]
  norm_num [List.range_succ, List.all_cons]
